import Mathlib

/-
Verification of the streaming chat pipeline of the agentverse_conn
repository: the producer's response-chunking loop, the consumer's
SSE line decoder (src/frontend/src/services/api.ts), and the
consumer's event-folding reducer (src/frontend/src/hooks/useChat.ts).
-/

set_option maxHeartbeats 1000000

/-- Reference chunk size of the producer's streaming loop
(`chunk_size = 10` in the backend chunking code). -/
def chunkSize : Nat := 10

/-- One pass of the producer's chunking loop
`for i in range(0, len(response_content), chunk_size): chunk = response_content[i:i + chunk_size]`,
written with an explicit fuel argument so that the recursion is
structural; `fuel` only needs to dominate the list length. -/
def chunkGo : Nat → List Char → List (List Char)
  | _, [] => []
  | 0, _ :: _ => []
  | fuel + 1, c :: rest =>
      (c :: rest).take chunkSize :: chunkGo fuel ((c :: rest).drop chunkSize)

/-- The producer's chunking loop on the character list of the extracted
response: slices of `chunkSize` characters, in left-to-right order; an
empty response yields no chunks. -/
def chunkResponse (s : List Char) : List (List Char) :=
  chunkGo s.length s

/-- The shared stream-event record (`StreamEvent` in
src/frontend/src/types/index.ts): a `type` discriminator plus optional
fields, mirroring the TypeScript interface where `content`, `tool_name`,
`status` and `message` may be absent. -/
structure StreamEvent where
  type : String
  content : Option String := none
  tool_name : Option String := none
  status : Option String := none
  message : Option String := none
deriving DecidableEq

/-- The events emitted by the producer's chunking loop: one
`{'type': 'message', 'content': chunk}` per slice, in left-to-right
order. -/
def producerMessageEvents (response : List Char) : List StreamEvent :=
  (chunkResponse response).map fun ch =>
    { type := "message", content := some (String.mk ch) }

/-- The `content` fields of the `message` events of a stream, in order. -/
def messageContents (evs : List StreamEvent) : List String :=
  evs.filterMap fun e => if e.type = "message" then e.content else none

/-
The consumer's SSE line decoder (`ApiService.streamChat` in
src/frontend/src/services/api.ts): bytes are accumulated in `buffer`,
split on `'\n'`, the trailing element is kept as the new buffer
(`buffer = lines.pop() || ''`), and each complete line starting with
`'data: '` has its payload (`line.slice(6)`) JSON-parsed; parse failures
are logged and skipped.
-/

/-- `buffer.split('\n')` on character lists: split at every newline,
keeping empty segments; the result is always nonempty and its last
element is the (possibly empty) text after the final newline. -/
def splitNewline : List Char → List (List Char)
  | [] => [[]]
  | c :: rest =>
      match splitNewline rest with
      | [] => [[]]
      | l :: ls => if c = '\n' then [] :: l :: ls else (c :: l) :: ls

/-- `line.startsWith('data: ')`. -/
def startsWithData : List Char → Bool
  | 'd' :: 'a' :: 't' :: 'a' :: ':' :: ' ' :: _ => true
  | _ => false

/-- Processing of one complete line in the decoder's inner loop: a line
carrying the `data: ` marker has its payload `line.slice(6)` parsed
(`parse` abstracts `JSON.parse`; `none` is a parse failure, which the
code logs and skips); a line without the marker is ignored. -/
def lineEvent {E : Type} (parse : List Char → Option E) (line : List Char) :
    Option E :=
  if startsWithData line then parse (line.drop 6) else none

/-- One iteration of the decoder's read loop on one transport chunk:
append the chunk to the buffer, split on newlines, keep the trailing
partial line as the new buffer, and yield the events of the complete
lines in order. -/
def sseStep {E : Type} (parse : List Char → Option E)
    (buffer chunk : List Char) : List Char × List E :=
  let lines := splitNewline (buffer ++ chunk)
  (lines.getLast?.getD [], lines.dropLast.filterMap (lineEvent parse))

/-- The decoder's read loop over the whole sequence of transport chunks,
starting from buffer `buffer`: the final buffer and all yielded events,
in order. -/
def sseRun {E : Type} (parse : List Char → Option E) (buffer : List Char) :
    List (List Char) → List Char × List E
  | [] => (buffer, [])
  | chunk :: chunks =>
      let step := sseStep parse buffer chunk
      let rest := sseRun parse step.1 chunks
      (rest.1, step.2 ++ rest.2)

/-
The consumer's event-folding reducer (`useChat` in
src/frontend/src/hooks/useChat.ts).  State: `messages` (transcript),
`isStreaming`, `activeTools`, `error`, plus the local running assistant
text `assistantContent` of the current `sendMessage` call and the
outstanding `setTimeout` removal timers as `(fire time, tool name)`
pairs.  Time is modelled as an explicit `Nat` clock (milliseconds):
events are folded at given timestamps, and pending timers whose fire
time has passed run before each event and at any observation point.
-/

/-- A transcript message (`Message` in src/frontend/src/types/index.ts);
`tools_used` is optional in the TypeScript interface. -/
structure Message where
  role : String
  content : String
  timestamp : String
  tools_used : Option (List String) := none
deriving DecidableEq

/-- One entry of the client-only active-tool projection (`ToolActivity`
in src/frontend/src/types/index.ts). -/
structure ToolActivity where
  name : String
  status : String
deriving DecidableEq

/-- The fixed removal delay of completed tool entries
(`setTimeout(..., 2000)` in useChat.ts), in milliseconds. -/
def removalDelay : Nat := 2000

/-- The `useChat` state folded by `sendMessage`'s event loop. -/
structure ConsumerState where
  messages : List Message
  isStreaming : Bool
  activeTools : List ToolActivity
  error : Option String
  assistantContent : String
  timers : List (Nat × String)
deriving DecidableEq

/-- The initial `useState` values of the hook. -/
def consumerInit : ConsumerState :=
  { messages := [], isStreaming := false, activeTools := [], error := none,
    assistantContent := "", timers := [] }

/-- JavaScript truthiness of an optional string field: `undefined` and
`''` are falsy. -/
def truthyStr : Option String → Bool
  | none => false
  | some s => s != ""

/-- `content.trim()` on the underlying characters: strip leading and
trailing whitespace. -/
def trimChars (s : List Char) : List Char :=
  (((s.dropWhile Char.isWhitespace).reverse).dropWhile Char.isWhitespace).reverse

/-- JavaScript `String.prototype.trim`, modelled on the string's
character list. -/
def jsTrim (s : String) : String :=
  String.mk (trimChars s.data)

/-- `updated[updated.length - 1] = f(updated[updated.length - 1])`: the
in-place overwrite of the last transcript entry used by the `message`
and `tool{start}` cases (no entry is created or removed; on an empty
transcript nothing happens). -/
def updateLast (ms : List Message) (f : Message → Message) : List Message :=
  match ms.getLast? with
  | none => ms
  | some m => ms.dropLast ++ [f m]

/-- Run every pending `setTimeout` removal whose fire time has passed:
a due timer `(ft, n)` executes
`setActiveTools(prev => prev.filter(tool => tool.name !== n))` and is
discharged; timers not yet due are kept. -/
def fireDue : List (Nat × String) → Nat → List ToolActivity →
    List ToolActivity × List (Nat × String)
  | [], _, tools => (tools, [])
  | (ft, n) :: rest, now, tools =>
      if ft ≤ now then fireDue rest now (tools.filter fun a => a.name != n)
      else
        let p := fireDue rest now tools
        (p.1, (ft, n) :: p.2)

/-- Advance the clock to `now`: fire all due removal timers. -/
def fireTimersAt (st : ConsumerState) (now : Nat) : ConsumerState :=
  let p := fireDue st.timers now st.activeTools
  { st with activeTools := p.1, timers := p.2 }

/-- The `switch (streamEvent.type)` of `sendMessage`'s event loop,
folding one decoded event into state at clock time `now`:
`message` appends truthy `content` to the running assistant text and
overwrites the last transcript entry's content; `tool`/`start` appends
an `active` entry to the projection and records the name once in the
last entry's `tools_used`; `tool`/`end` flips matching entries to
`completed` and schedules their removal `removalDelay` later; `error`
stores a recoverable error message; `done` clears the streaming flag and
the projection. -/
def foldEvent (st : ConsumerState) (now : Nat) (e : StreamEvent) :
    ConsumerState :=
  if e.type == "message" then
    if truthyStr e.content then
      { st with
        assistantContent := st.assistantContent ++ e.content.getD "",
        messages := updateLast st.messages fun m =>
          { m with content := st.assistantContent ++ e.content.getD "" } }
    else st
  else if e.type == "tool" then
    if truthyStr e.tool_name then
      if e.status == some "start" then
        { st with
          activeTools := st.activeTools ++
            [{ name := e.tool_name.getD "", status := "active" }],
          messages := updateLast st.messages fun m =>
            { m with
              tools_used := some (if e.tool_name.getD "" ∈ m.tools_used.getD []
                then m.tools_used.getD []
                else m.tools_used.getD [] ++ [e.tool_name.getD ""]) } }
      else if e.status == some "end" then
        { st with
          activeTools := st.activeTools.map fun a =>
            if a.name == e.tool_name.getD ""
            then { a with status := "completed" } else a,
          timers := st.timers ++ [(now + removalDelay, e.tool_name.getD "")] }
      else st
    else st
  else if e.type == "error" then
    { st with
      error := some (if truthyStr e.message then e.message.getD ""
                     else "An error occurred") }
  else if e.type == "done" then
    { st with isStreaming := false, activeTools := [] }
  else st

/-- One arrival: fire the removal timers that became due while awaiting
the event, then fold it. -/
def stepTimed (st : ConsumerState) (te : Nat × StreamEvent) : ConsumerState :=
  foldEvent (fireTimersAt st te.1) te.1 te.2

/-- Fold a timed event trace in arrival order. -/
def runEvents (st : ConsumerState) (tes : List (Nat × StreamEvent)) :
    ConsumerState :=
  tes.foldl stepTimed st

/-- `sendMessage(content)` for one whole turn.  The guard
`if (!sessionId || !content.trim() || isStreaming) return;` makes it a
no-op; otherwise the trimmed user message and an empty assistant
placeholder are appended, streaming starts, the timed event trace `tes`
is folded, and — when the transport fails with message `failure`
(request rejected, non-2xx, or a read error) — the catch block surfaces
the error, stops streaming, clears the projection and removes the
incomplete assistant placeholder (`prev.slice(0, -1)`). -/
def sendMessage (st : ConsumerState) (sessionId : Option String)
    (content : String) (ts1 ts2 : String)
    (tes : List (Nat × StreamEvent)) (failure : Option String) :
    ConsumerState :=
  if !truthyStr sessionId || jsTrim content == "" || st.isStreaming then st
  else
    let userMessage : Message :=
      { role := "user", content := jsTrim content, timestamp := ts1 }
    let assistantMessage : Message :=
      { role := "assistant", content := "", timestamp := ts2,
        tools_used := some [] }
    let st1 := { st with
      isStreaming := true, error := none, assistantContent := "",
      messages := st.messages ++ [userMessage, assistantMessage] }
    let st2 := runEvents st1 tes
    match failure with
    | none => st2
    | some emsg =>
        { st2 with
          error := some emsg, isStreaming := false, activeTools := [],
          messages := st2.messages.dropLast }

/-- `{type: 'message', content: c}`. -/
def msgEvent (c : String) : StreamEvent :=
  { type := "message", content := some c }

/-- `{type: 'tool', tool_name: n, status: 'start'}`. -/
def toolStartEvent (n : String) : StreamEvent :=
  { type := "tool", tool_name := some n, status := some "start" }

/-- `{type: 'tool', tool_name: n, status: 'end'}`. -/
def toolEndEvent (n : String) : StreamEvent :=
  { type := "tool", tool_name := some n, status := some "end" }

/-- `{type: 'error', message: m}`. -/
def errEvent (m : String) : StreamEvent :=
  { type := "error", message := some m }

/-- `{type: 'done'}`. -/
def doneEvent : StreamEvent :=
  { type := "done" }

/-- The tool name of a `tool{start}` event that passes `foldEvent`'s
guards; `none` for every other event. -/
def startName (e : StreamEvent) : Option String :=
  if e.type == "tool" && truthyStr e.tool_name && e.status == some "start"
  then e.tool_name else none

/-- The guarded `tool{start}` names of a timed trace, in arrival order. -/
def startNames (tes : List (Nat × StreamEvent)) : List String :=
  tes.filterMap fun te => startName te.2

/-- `if (!list.includes(n)) list.push(n)`. -/
def addUnique (l : List String) (n : String) : List String :=
  if n ∈ l then l else l ++ [n]

/-- Whether an event is the terminal `done` event. -/
def isDoneEvent (e : StreamEvent) : Bool :=
  e.type == "done"

/-- Whether an event is a `tool` event naming `n`. -/
def mentionsTool (n : String) (e : StreamEvent) : Bool :=
  e.type == "tool" && e.tool_name == some n

/-- Whether an event is a `tool{start}` event naming `n`. -/
def isToolStartFor (n : String) (e : StreamEvent) : Bool :=
  e.type == "tool" && e.tool_name == some n && e.status == some "start"

theorem chunkGo_flatten (fuel : Nat) (s : List Char) (h : s.length ≤ fuel) :
    (chunkGo fuel s).flatten = s := by
  induction fuel generalizing s with
  | zero =>
      cases s with
      | nil => rfl
      | cons c rest => simp at h
  | succ fuel ih =>
      cases s with
      | nil => rfl
      | cons c rest =>
          simp only [chunkGo, List.flatten_cons]
          rw [ih ((c :: rest).drop chunkSize) (by simp [chunkSize] at *; omega),
            List.take_append_drop]

theorem chunkResponse_flatten (s : List Char) : (chunkResponse s).flatten = s :=
  chunkGo_flatten s.length s le_rfl

theorem messageContents_producer (s : List Char) :
    messageContents (producerMessageEvents s) =
      (chunkResponse s).map String.mk := by
  unfold messageContents producerMessageEvents
  induction chunkResponse s with
  | nil => rfl
  | cons a l ih => simp only [List.map_cons, List.filterMap_cons, ih]; simp

theorem join_map_mk (l : List (List Char)) :
    String.join (l.map String.mk) = String.mk l.flatten := by
  induction l with
  | nil => rfl
  | cons a l ih =>
      apply String.ext
      simp only [List.map_cons, String.join, List.foldl_cons, List.flatten_cons]
      have : ∀ (acc : String) (m : List String),
          (List.foldl (· ++ ·) acc m).data = acc.data ++ (String.join m).data := by
        intro acc m
        induction m generalizing acc with
        | nil => simp [String.join]
        | cons b m ihm =>
            simp only [String.join, List.foldl_cons] at *
            rw [ihm, ihm ("" ++ b), String.data_append, String.data_append]
            simp
      rw [this]
      have hih : (String.join (l.map String.mk)).data = l.flatten := by
        rw [ih]
      rw [hih, String.data_append]
      rfl

/-- C1: concatenating the `content` fields of the `message` events emitted
by the producer's chunking loop, in emission order, yields exactly the
extracted response text: chunking is a lossless, order-preserving
partition. -/
theorem chunking_lossless (response : List Char) :
    String.join (messageContents (producerMessageEvents response)) =
      String.mk response := by
  rw [messageContents_producer, join_map_mk, chunkResponse_flatten]

theorem chunkGo_length (fuel : Nat) (s : List Char) (h : s.length ≤ fuel) :
    (chunkGo fuel s).length = (s.length + (chunkSize - 1)) / chunkSize := by
  induction fuel generalizing s with
  | zero =>
      cases s with
      | nil => rfl
      | cons c rest => simp at h
  | succ fuel ih =>
      cases s with
      | nil => rfl
      | cons c rest =>
          simp only [chunkGo, List.length_cons]
          rw [ih ((c :: rest).drop chunkSize) (by simp [chunkSize] at *; omega)]
          simp only [List.length_drop, List.length_cons, chunkSize]
          omega

theorem chunkResponse_length (s : List Char) :
    (chunkResponse s).length = (s.length + (chunkSize - 1)) / chunkSize :=
  chunkGo_length s.length s le_rfl

theorem chunkGo_ne_nil (fuel : Nat) (c : Char) (rest : List Char)
    (h : (c :: rest).length ≤ fuel) : chunkGo fuel (c :: rest) ≠ [] := by
  cases fuel with
  | zero => simp at h
  | succ fuel => simp [chunkGo]

theorem chunkGo_dropLast_length (fuel : Nat) (s : List Char)
    (h : s.length ≤ fuel) :
    ∀ ch ∈ (chunkGo fuel s).dropLast, ch.length = chunkSize := by
  induction fuel generalizing s with
  | zero =>
      cases s with
      | nil => intro ch hch; simp [chunkGo] at hch
      | cons c rest => simp at h
  | succ fuel ih =>
      cases s with
      | nil => intro ch hch; simp [chunkGo] at hch
      | cons c rest =>
          intro ch hch
          simp only [chunkGo] at hch
          rcases hd : (c :: rest).drop chunkSize with _ | ⟨x, xs⟩
          · rw [hd] at hch; simp [chunkGo] at hch
          · have hne : chunkGo fuel ((c :: rest).drop chunkSize) ≠ [] := by
              rw [hd]
              apply chunkGo_ne_nil
              have hl := congrArg List.length hd
              simp only [List.length_drop, List.length_cons, chunkSize]
                at hl h ⊢
              omega
            rw [List.dropLast_cons_of_ne_nil hne] at hch
            rcases List.mem_cons.mp hch with hch | hch
            · subst hch
              have hlen : chunkSize ≤ (c :: rest).length := by
                by_contra hlt
                push_neg at hlt
                rw [List.drop_eq_nil_of_le (Nat.le_of_lt hlt)] at hd
                simp at hd
              rw [List.length_take]
              simp only [List.length_cons, chunkSize] at hlen ⊢
              omega
            · exact ih ((c :: rest).drop chunkSize)
                (by
                  simp only [List.length_drop, List.length_cons, chunkSize]
                    at h ⊢
                  omega) ch hch

theorem chunkGo_getLast_length (fuel : Nat) (s : List Char)
    (h : s.length ≤ fuel) :
    ∀ ch, (chunkGo fuel s).getLast? = some ch →
      ch.length = if s.length % chunkSize = 0 then chunkSize
                  else s.length % chunkSize := by
  induction fuel generalizing s with
  | zero =>
      cases s with
      | nil => intro ch hch; simp [chunkGo] at hch
      | cons c rest => simp at h
  | succ fuel ih =>
      cases s with
      | nil => intro ch hch; simp [chunkGo] at hch
      | cons c rest =>
          intro ch hch
          simp only [chunkGo] at hch
          rcases hrec : chunkGo fuel ((c :: rest).drop chunkSize)
            with _ | ⟨b, l⟩
          · rw [hrec, List.getLast?_singleton, Option.some_inj] at hch
            subst hch
            have hlen : (c :: rest).length ≤ chunkSize := by
              by_contra hlt
              push_neg at hlt
              rcases hd : (c :: rest).drop chunkSize with _ | ⟨x, xs⟩
              · have hl := congrArg List.length hd
                simp only [List.length_drop, List.length_cons,
                  List.length_nil, chunkSize] at hl hlt
                omega
              · rw [hd] at hrec
                have hl := congrArg List.length hd
                simp only [List.length_drop, List.length_cons, chunkSize]
                  at hl h
                exact chunkGo_ne_nil fuel x xs
                  (by simp only [List.length_cons]; omega) hrec
            rw [List.length_take]
            simp only [List.length_cons, chunkSize] at hlen ⊢
            split <;> omega
          · rw [hrec, List.getLast?_cons_cons] at hch
            have hval := ih ((c :: rest).drop chunkSize)
              (by
                simp only [List.length_drop, List.length_cons, chunkSize]
                  at h ⊢
                omega) ch (by rw [hrec]; exact hch)
            have hlen : chunkSize ≤ (c :: rest).length := by
              by_contra hlt
              push_neg at hlt
              rw [List.drop_eq_nil_of_le (Nat.le_of_lt hlt)] at hrec
              cases fuel <;> simp [chunkGo] at hrec
            simp only [List.length_drop, List.length_cons, chunkSize]
              at hval hlen ⊢
            split at hval <;> split <;> omega

/-- C2: for a response of length `L` chunked at size 10, the loop emits
exactly `⌈L / 10⌉` message events; every chunk but the last has length 10,
and the last has length `L % 10` (or 10 when 10 divides `L`); an empty
response yields zero events. -/
theorem chunk_count_and_sizes (response : List Char) :
    (producerMessageEvents response).length =
        (response.length + (chunkSize - 1)) / chunkSize
    ∧ (∀ ch ∈ (chunkResponse response).dropLast, ch.length = chunkSize)
    ∧ (∀ ch, (chunkResponse response).getLast? = some ch →
        ch.length = if response.length % chunkSize = 0 then chunkSize
                    else response.length % chunkSize)
    ∧ (response = [] → producerMessageEvents response = []) := by
  refine ⟨?_, chunkGo_dropLast_length response.length response le_rfl,
    chunkGo_getLast_length response.length response le_rfl, ?_⟩
  · rw [producerMessageEvents, List.length_map, chunkResponse_length]
  · intro h; subst h; rfl

/-- Witness for C2 at the spec's scenario response `"hello there"`
(11 characters): two events, and the last chunk `"e"` has length
`11 % 10 = 1`. -/
theorem chunk_count_and_sizes_witness :
    (producerMessageEvents ("hello there".toList)).length = 2
    ∧ ("e".toList).length = 1 := by
  refine ⟨?_, ?_⟩
  · rw [(chunk_count_and_sizes ("hello there".toList)).1]; decide
  · exact (chunk_count_and_sizes ("hello there".toList)).2.2.1 ("e".toList)
      (by decide)

theorem splitNewline_ne_nil (s : List Char) : splitNewline s ≠ [] := by
  cases s with
  | nil => simp [splitNewline]
  | cons c rest =>
      simp only [splitNewline]
      split
      · simp
      · split <;> simp

theorem splitNewline_getLast_no_newline (s : List Char) :
    '\n' ∉ (splitNewline s).getLast?.getD [] := by
  induction s with
  | nil => simp [splitNewline]
  | cons c rest ih =>
      simp only [splitNewline]
      rcases h : splitNewline rest with _ | ⟨l, ls⟩
      · exact absurd h (splitNewline_ne_nil rest)
      · rw [h] at ih
        by_cases hc : c = '\n'
        · simp only [if_pos hc, List.getLast?_cons_cons]
          exact ih
        · simp only [if_neg hc]
          cases ls with
          | nil =>
              simp only [List.getLast?_singleton, Option.getD_some] at ih ⊢
              intro hmem
              rcases List.mem_cons.mp hmem with h1 | h1
              · exact hc h1.symm
              · exact ih h1
          | cons l2 ls2 =>
              rw [List.getLast?_cons_cons] at ih ⊢
              exact ih

theorem splitNewline_no_newline (s : List Char) (h : '\n' ∉ s) :
    splitNewline s = [s] := by
  induction s with
  | nil => rfl
  | cons c rest ih =>
      have hc : ¬ (c = '\n') := by
        intro hh
        exact h (by rw [hh]; exact List.mem_cons_self _ _)
      have hrest : '\n' ∉ rest := fun hm => h (List.mem_cons_of_mem c hm)
      simp only [splitNewline, ih hrest, if_neg hc]

theorem splitNewline_append (a b : List Char) :
    splitNewline (a ++ b) =
      (splitNewline a).dropLast ++
        ((splitNewline a).getLast?.getD [] ++
          (splitNewline b).head?.getD []) :: (splitNewline b).tail := by
  induction a with
  | nil =>
      rcases h : splitNewline b with _ | ⟨hb, tb⟩
      · exact absurd h (splitNewline_ne_nil b)
      · simp [splitNewline, h]
  | cons c a ih =>
      rcases ha : splitNewline a with _ | ⟨l0, ls0⟩
      · exact absurd ha (splitNewline_ne_nil a)
      rcases hb : splitNewline b with _ | ⟨hb0, tb0⟩
      · exact absurd hb (splitNewline_ne_nil b)
      rw [ha, hb] at ih
      simp only [List.cons_append, splitNewline, List.append_eq]
      rw [ih, ha]
      by_cases hc : c = '\n'
      · simp only [if_pos hc]
        cases ls0 with
        | nil => simp
        | cons s1 ss => simp [List.dropLast_cons₂]
      · simp only [if_neg hc]
        cases ls0 with
        | nil => simp
        | cons s1 ss => simp [List.dropLast_cons₂]

theorem sseStep_append {E : Type} (parse : List Char → Option E)
    (buffer x y : List Char) :
    sseStep parse buffer (x ++ y) =
      ((sseStep parse (sseStep parse buffer x).1 y).1,
       (sseStep parse buffer x).2 ++
         (sseStep parse (sseStep parse buffer x).1 y).2) := by
  unfold sseStep
  simp only [← List.append_assoc]
  rw [splitNewline_append (buffer ++ x) y,
    splitNewline_append ((splitNewline (buffer ++ x)).getLast?.getD []) y,
    splitNewline_no_newline _ (splitNewline_getLast_no_newline (buffer ++ x))]
  rcases hy : splitNewline y with _ | ⟨hy0, ty0⟩
  · exact absurd hy (splitNewline_ne_nil y)
  simp [List.dropLast_append_cons, List.filterMap_append, List.getLast?_cons]

theorem sseRun_flatten {E : Type} (parse : List Char → Option E)
    (buffer : List Char) (chunks : List (List Char))
    (hbuf : '\n' ∉ buffer) :
    sseRun parse buffer chunks = sseStep parse buffer chunks.flatten := by
  induction chunks generalizing buffer with
  | nil =>
      simp [sseRun, sseStep, splitNewline_no_newline buffer hbuf]
  | cons ch chunks ih =>
      simp only [sseRun, List.flatten_cons]
      rw [sseStep_append parse buffer ch chunks.flatten,
        ih _ (by unfold sseStep; exact splitNewline_getLast_no_newline _)]

/-- C9: the decoder buffers partial lines across chunk boundaries — its
result over any sequence of transport chunks equals processing the whole
concatenated byte stream at once, one parsed event per complete
newline-terminated `data: ` record in order; a record whose payload does
not parse is skipped without dropping any other event or terminating the
loop; lines without the `data: ` marker contribute no event. -/
theorem sse_decoder_robust {E : Type} (parse : List Char → Option E)
    (chunks : List (List Char)) :
    sseRun parse [] chunks = sseStep parse [] chunks.flatten
    ∧ (∀ pre post line, lineEvent parse line = none →
        List.filterMap (lineEvent parse) (pre ++ line :: post) =
          List.filterMap (lineEvent parse) (pre ++ post))
    ∧ (∀ line, startsWithData line = false → lineEvent parse line = none) := by
  refine ⟨sseRun_flatten parse [] chunks (by simp), ?_, ?_⟩
  · intro pre post line hline
    simp [List.filterMap_append, List.filterMap_cons, hline]
  · intro line hline
    simp [lineEvent, hline]

/-- Witness for C9: a stream delivered in three chunks that split records
arbitrarily — a valid record, a record whose payload does not parse, a
line without the marker, and a trailing partial record — decodes to
exactly the events of the concatenated stream, skipping the malformed
record and the unmarked line. -/
theorem sse_decoder_robust_witness :
    (sseRun (fun l => if l = ['7'] then some 7 else none) []
        ["data: 7\nda".toList, "ta: x\nnope\nda".toList, "ta: 7".toList] =
      sseStep (fun l => if l = ['7'] then some 7 else none) []
        (["data: 7\nda".toList, "ta: x\nnope\nda".toList,
          "ta: 7".toList].flatten))
    ∧ (List.filterMap (lineEvent fun l => if l = ['7'] then some 7 else none)
        (["data: 7".toList] ++ "data: x".toList :: ["data: 7".toList]) =
      List.filterMap (lineEvent fun l => if l = ['7'] then some 7 else none)
        (["data: 7".toList] ++ ["data: 7".toList])) := by
  constructor
  · exact (sse_decoder_robust (fun l => if l = ['7'] then some 7 else none)
      ["data: 7\nda".toList, "ta: x\nnope\nda".toList, "ta: 7".toList]).1
  · exact (sse_decoder_robust (fun l => if l = ['7'] then some 7 else none)
      []).2.1 ["data: 7".toList] ["data: 7".toList] ("data: x".toList)
      (by decide)

theorem eq_dropLast_concat {α : Type} (l : List α) (a : α)
    (h : l.getLast? = some a) : l = l.dropLast ++ [a] := by
  have hne : l ≠ [] := by intro hh; subst hh; simp at h
  have hc := List.dropLast_concat_getLast hne
  rw [List.getLast?_eq_getLast l hne] at h
  injection h with h
  rw [h] at hc
  exact hc.symm

theorem updateLast_dropLast (ms : List Message) (f : Message → Message) :
    (updateLast ms f).dropLast = ms.dropLast := by
  unfold updateLast
  rcases h : ms.getLast? with _ | m
  · rfl
  · rw [List.dropLast_concat]

theorem updateLast_length (ms : List Message) (f : Message → Message) :
    (updateLast ms f).length = ms.length := by
  unfold updateLast
  rcases h : ms.getLast? with _ | m
  · rfl
  · have hne : ms ≠ [] := by intro hh; subst hh; simp at h
    rw [List.length_append, List.length_dropLast]
    have := List.length_pos.mpr hne
    simp
    omega

theorem updateLast_getLast (ms : List Message) (f : Message → Message)
    (m : Message) (h : ms.getLast? = some m) :
    (updateLast ms f).getLast? = some (f m) := by
  unfold updateLast
  rw [h, List.getLast?_concat]

theorem foldEvent_messages_dropLast (st : ConsumerState) (now : Nat)
    (e : StreamEvent) :
    (foldEvent st now e).messages.dropLast = st.messages.dropLast := by
  unfold foldEvent
  split_ifs <;> simp [updateLast_dropLast]

theorem foldEvent_messages_length (st : ConsumerState) (now : Nat)
    (e : StreamEvent) :
    (foldEvent st now e).messages.length = st.messages.length := by
  unfold foldEvent
  split_ifs <;> simp [updateLast_length]

theorem runEvents_messages_dropLast (tes : List (Nat × StreamEvent)) :
    ∀ st : ConsumerState,
      (runEvents st tes).messages.dropLast = st.messages.dropLast := by
  induction tes with
  | nil => intro st; rfl
  | cons te tes ih =>
      intro st
      show (runEvents (stepTimed st te) tes).messages.dropLast = _
      rw [ih, stepTimed, foldEvent_messages_dropLast]
      rfl

/-- C8: `sendMessage` is a no-op when the content trims to the empty
string or a stream is already in flight: the whole state — transcript,
active-tool projection, streaming flag — is returned unchanged, for any
stream outcome. -/
theorem send_guard_noop (st : ConsumerState) (sessionId : Option String)
    (content ts1 ts2 : String) (tes : List (Nat × StreamEvent))
    (failure : Option String)
    (h : jsTrim content = "" ∨ st.isStreaming = true) :
    sendMessage st sessionId content ts1 ts2 tes failure = st := by
  unfold sendMessage
  rcases h with h | h <;> simp [h]

/-- Witness for C8: whitespace-only input, and input during streaming,
both leave the state untouched. -/
theorem send_guard_noop_witness :
    sendMessage consumerInit (some "s") "  \t " "t1" "t2"
        [(0, msgEvent "x")] none = consumerInit
    ∧ sendMessage { consumerInit with isStreaming := true } (some "s")
        "hello" "t1" "t2" [(0, msgEvent "x")] none =
      { consumerInit with isStreaming := true } :=
  ⟨send_guard_noop _ _ _ _ _ _ _ (Or.inl (by decide)),
   send_guard_noop _ _ _ _ _ _ _ (Or.inr (by decide))⟩

/-- C3 (code bug): when the producer emits an `error` event and then the
stream closes without `done` — the producer contract's error path — the
`error` case of the fold never resets `isStreaming`, so the flag stays
`true` after the turn and the guard rejects the next `sendMessage`
despite its non-empty content: the error state latches, contradicting
the specified recoverable-error behavior. -/
theorem error_event_latches_streaming :
    (sendMessage consumerInit (some "s") "hi" "t1" "t2"
        [(0, errEvent "boom")] none).isStreaming = true
    ∧ (sendMessage consumerInit (some "s") "hi" "t1" "t2"
        [(0, errEvent "boom")] none).error = some "boom"
    ∧ sendMessage
        (sendMessage consumerInit (some "s") "hi" "t1" "t2"
          [(0, errEvent "boom")] none)
        (some "s") "hello again" "t3" "t4" [(5, msgEvent "x")] none =
      sendMessage consumerInit (some "s") "hi" "t1" "t2"
        [(0, errEvent "boom")] none := by
  refine ⟨by decide, by decide, by decide⟩

/-- C6: folding a `message` event replaces only the `content` of the
last transcript entry with the running assistant text: the transcript's
length is unchanged, no entry is created, every entry but the last is
unchanged, all other fields of the last entry are unchanged, and the
rest of the state (flag, projection, error, timers) is untouched.
(`hrun` is the invariant, maintained by the fold, that the last entry
already holds the running text.) -/
theorem message_event_frame (st : ConsumerState) (now : Nat) (c : String)
    (m : Message) (hlast : st.messages.getLast? = some m)
    (hrun : m.content = st.assistantContent) :
    (foldEvent st now (msgEvent c)).messages =
        st.messages.dropLast ++ [{ m with content := st.assistantContent ++ c }]
    ∧ (foldEvent st now (msgEvent c)).messages.length = st.messages.length
    ∧ (foldEvent st now (msgEvent c)).messages.dropLast = st.messages.dropLast
    ∧ (foldEvent st now (msgEvent c)).isStreaming = st.isStreaming
    ∧ (foldEvent st now (msgEvent c)).activeTools = st.activeTools
    ∧ (foldEvent st now (msgEvent c)).error = st.error
    ∧ (foldEvent st now (msgEvent c)).timers = st.timers := by
  refine ⟨?_, foldEvent_messages_length st now (msgEvent c),
    foldEvent_messages_dropLast st now (msgEvent c), ?_, ?_, ?_, ?_⟩
  · unfold foldEvent msgEvent
    by_cases hc : c = ""
    · subst hc
      simp only [truthyStr]
      simp only [String.append_empty, ← hrun]
      have : ({ m with content := m.content } : Message) = m := rfl
      rw [this, ← eq_dropLast_concat st.messages m hlast]
      simp
    · have ht : truthyStr (some c) = true := by
        simp [truthyStr]
        exact hc
      simp only [ht]
      simp only [updateLast, hlast]
      simp [hc]
  all_goals
    unfold foldEvent msgEvent
    by_cases hc : c = "" <;> simp [truthyStr, hc]

/-- Witness for C6: folding `message{"hi"}` onto a transcript whose last
entry is the empty assistant placeholder rewrites only that entry's
content. -/
theorem message_event_frame_witness :
    (foldEvent
        { messages :=
            [{ role := "user", content := "q", timestamp := "t0" },
             { role := "assistant", content := "", timestamp := "t1",
               tools_used := some [] }],
          isStreaming := true, activeTools := [], error := none,
          assistantContent := "", timers := [] } 0 (msgEvent "hi")).messages =
      [{ role := "user", content := "q", timestamp := "t0" },
       { role := "assistant", content := "" ++ "hi", timestamp := "t1",
         tools_used := some [] }] :=
  (message_event_frame _ 0 "hi"
    { role := "assistant", content := "", timestamp := "t1",
      tools_used := some [] } (by decide) (by decide)).1

/-- C10: on a transport-level failure at any point of the stream — the
`catch` block of `sendMessage` — the consumer surfaces the error, clears
the active-tool projection, marks streaming inactive, and removes
exactly one transcript entry, the incomplete assistant placeholder,
leaving the appended user message (with the trimmed content) in place:
the discard variant of the policy choice point. -/
theorem transport_failure_discards_placeholder (st : ConsumerState)
    (sessionId : Option String) (content ts1 ts2 : String)
    (tes : List (Nat × StreamEvent)) (emsg : String)
    (hsid : truthyStr sessionId = true)
    (hcontent : jsTrim content ≠ "")
    (hstream : st.isStreaming = false) :
    (sendMessage st sessionId content ts1 ts2 tes (some emsg)).error =
        some emsg
    ∧ (sendMessage st sessionId content ts1 ts2 tes (some emsg)).isStreaming =
        false
    ∧ (sendMessage st sessionId content ts1 ts2 tes (some emsg)).activeTools =
        []
    ∧ (sendMessage st sessionId content ts1 ts2 tes (some emsg)).messages =
        st.messages ++
          [{ role := "user", content := jsTrim content, timestamp := ts1 }] := by
  unfold sendMessage
  have hcond :
      (!truthyStr sessionId || jsTrim content == "" || st.isStreaming) =
        false := by
    simp [hsid, hstream, hcontent]
  simp only [hcond, Bool.false_eq_true, if_false]
  refine ⟨trivial, trivial, trivial, ?_⟩
  show (runEvents _ tes).messages.dropLast = _
  rw [runEvents_messages_dropLast]
  show (st.messages ++ [_, _]).dropLast = _
  rw [List.dropLast_append_cons]
  rfl

/-- Witness for C10: a failing stream after one folded `message` event
ends with the error surfaced, the projection empty, streaming off, and
only the user message appended. -/
theorem transport_failure_discards_placeholder_witness :
    (sendMessage consumerInit (some "s") " hi " "t1" "t2"
        [(0, msgEvent "par")] (some "network down")).messages =
      consumerInit.messages ++
        [{ role := "user", content := jsTrim " hi ", timestamp := "t1" }] :=
  (transport_failure_discards_placeholder consumerInit (some "s") " hi "
    "t1" "t2" [(0, msgEvent "par")] "network down" (by decide) (by decide)
    (by decide)).2.2.2

theorem foldEvent_msg_pos (st : ConsumerState) (now : Nat) (e : StreamEvent)
    (h1 : e.type = "message") (h2 : truthyStr e.content = true) :
    foldEvent st now e =
      { st with
        assistantContent := st.assistantContent ++ e.content.getD "",
        messages := updateLast st.messages fun m =>
          { m with content := st.assistantContent ++ e.content.getD "" } } := by
  simp [foldEvent, h1, h2]

theorem foldEvent_msg_neg (st : ConsumerState) (now : Nat) (e : StreamEvent)
    (h1 : e.type = "message") (h2 : truthyStr e.content = false) :
    foldEvent st now e = st := by
  simp [foldEvent, h1, h2]

theorem foldEvent_start_eq (st : ConsumerState) (now : Nat) (e : StreamEvent)
    (h1 : e.type = "tool") (h2 : truthyStr e.tool_name = true)
    (h3 : e.status = some "start") :
    foldEvent st now e =
      { st with
        activeTools := st.activeTools ++
          [{ name := e.tool_name.getD "", status := "active" }],
        messages := updateLast st.messages fun m =>
          { m with
            tools_used := some (if e.tool_name.getD "" ∈ m.tools_used.getD []
              then m.tools_used.getD []
              else m.tools_used.getD [] ++ [e.tool_name.getD ""]) } } := by
  simp [foldEvent, h1, h2, h3]

theorem foldEvent_end_eq (st : ConsumerState) (now : Nat) (e : StreamEvent)
    (h1 : e.type = "tool") (h2 : truthyStr e.tool_name = true)
    (h3 : e.status = some "end") :
    foldEvent st now e =
      { st with
        activeTools := st.activeTools.map fun a =>
          if a.name == e.tool_name.getD ""
          then { a with status := "completed" } else a,
        timers := st.timers ++ [(now + removalDelay, e.tool_name.getD "")] } := by
  simp [foldEvent, h1, h2, h3]

theorem foldEvent_tool_other (st : ConsumerState) (now : Nat) (e : StreamEvent)
    (h1 : e.type = "tool") (h2 : truthyStr e.tool_name = true)
    (h3 : e.status ≠ some "start") (h4 : e.status ≠ some "end") :
    foldEvent st now e = st := by
  simp [foldEvent, h1, h2, h3, h4]

theorem foldEvent_tool_not_truthy (st : ConsumerState) (now : Nat)
    (e : StreamEvent) (h1 : e.type = "tool")
    (h2 : truthyStr e.tool_name = false) :
    foldEvent st now e = st := by
  simp [foldEvent, h1, h2]

theorem foldEvent_error_eq (st : ConsumerState) (now : Nat) (e : StreamEvent)
    (h1 : e.type = "error") :
    foldEvent st now e =
      { st with
        error := some (if truthyStr e.message then e.message.getD ""
                       else "An error occurred") } := by
  simp [foldEvent, h1]

theorem foldEvent_done_eq (st : ConsumerState) (now : Nat) (e : StreamEvent)
    (h1 : e.type = "done") :
    foldEvent st now e = { st with isStreaming := false, activeTools := [] } := by
  simp [foldEvent, h1]

theorem foldEvent_other_eq (st : ConsumerState) (now : Nat) (e : StreamEvent)
    (h1 : e.type ≠ "message") (h2 : e.type ≠ "tool") (h3 : e.type ≠ "error")
    (h4 : e.type ≠ "done") :
    foldEvent st now e = st := by
  simp [foldEvent, h1, h2, h3, h4]

theorem startName_of_not_tool (e : StreamEvent)
    (h : (e.type == "tool") = false) : startName e = none := by
  unfold startName
  simp [h]

theorem startName_of_not_truthy (e : StreamEvent)
    (h : truthyStr e.tool_name = false) : startName e = none := by
  unfold startName
  simp [h]

theorem startName_of_not_start (e : StreamEvent)
    (h : (e.status == some "start") = false) : startName e = none := by
  unfold startName
  simp [h]

theorem startName_of_start (e : StreamEvent)
    (h1 : (e.type == "tool") = true) (h2 : truthyStr e.tool_name = true)
    (h3 : (e.status == some "start") = true) :
    startName e = e.tool_name := by
  unfold startName
  simp [h1, h2, h3]

theorem foldEvent_tools_used (st : ConsumerState) (now : Nat)
    (e : StreamEvent) (m : Message) (tu : List String)
    (hlast : st.messages.getLast? = some m) (htu : m.tools_used = some tu) :
    ∃ m', (foldEvent st now e).messages.getLast? = some m'
      ∧ m'.tools_used = some (match startName e with
          | some n => addUnique tu n
          | none => tu) := by
  by_cases ht : e.type = "tool"
  · by_cases htr : truthyStr e.tool_name = true
    · by_cases hs : e.status = some "start"
      · rcases hname : e.tool_name with _ | s
        · rw [hname] at htr; simp [truthyStr] at htr
        · rw [foldEvent_start_eq st now e ht htr hs,
            startName_of_start e (by simp [ht]) htr (by simp [hs])]
          refine ⟨_, updateLast_getLast st.messages _ m hlast, ?_⟩
          simp only [hname, Option.getD_some, htu, Option.some_inj, addUnique]
      · by_cases he : e.status = some "end"
        · rw [foldEvent_end_eq st now e ht htr he,
            startName_of_not_start e (by simp [he])]
          exact ⟨m, hlast, htu⟩
        · rw [foldEvent_tool_other st now e ht htr hs he,
            startName_of_not_start e (by simp [hs])]
          exact ⟨m, hlast, htu⟩
    · rw [foldEvent_tool_not_truthy st now e ht (by simpa using htr),
        startName_of_not_truthy e (by simpa using htr)]
      exact ⟨m, hlast, htu⟩
  · rw [startName_of_not_tool e (by simp [ht])]
    by_cases hm : e.type = "message"
    · by_cases hc : truthyStr e.content = true
      · rw [foldEvent_msg_pos st now e hm hc]
        exact ⟨_, updateLast_getLast st.messages _ m hlast, htu⟩
      · rw [foldEvent_msg_neg st now e hm (by simpa using hc)]
        exact ⟨m, hlast, htu⟩
    · by_cases herr : e.type = "error"
      · rw [foldEvent_error_eq st now e herr]
        exact ⟨m, hlast, htu⟩
      · by_cases hd : e.type = "done"
        · rw [foldEvent_done_eq st now e hd]
          exact ⟨m, hlast, htu⟩
        · rw [foldEvent_other_eq st now e hm ht herr hd]
          exact ⟨m, hlast, htu⟩

theorem runEvents_tools_used (tes : List (Nat × StreamEvent)) :
    ∀ (st : ConsumerState) (m : Message) (tu : List String),
      st.messages.getLast? = some m → m.tools_used = some tu →
      ∃ m', (runEvents st tes).messages.getLast? = some m'
        ∧ m'.tools_used = some ((startNames tes).foldl addUnique tu) := by
  induction tes with
  | nil =>
      intro st m tu h1 h2
      exact ⟨m, h1, by simpa [startNames] using h2⟩
  | cons te tes ih =>
      intro st m tu h1 h2
      obtain ⟨t, e⟩ := te
      have h1' : (fireTimersAt st t).messages.getLast? = some m := h1
      obtain ⟨m1, hm1, htu1⟩ :=
        foldEvent_tools_used (fireTimersAt st t) t e m tu h1' h2
      show ∃ m', (runEvents (stepTimed st (t, e)) tes).messages.getLast? =
        some m' ∧ _
      rcases hsn : startName e with _ | n
      · rw [hsn] at htu1
        obtain ⟨m', hm', htu'⟩ := ih _ m1 tu hm1 htu1
        refine ⟨m', hm', ?_⟩
        rw [htu']
        congr 1
        simp [startNames, List.filterMap_cons, hsn]
      · rw [hsn] at htu1
        obtain ⟨m', hm', htu'⟩ := ih _ m1 (addUnique tu n) hm1 htu1
        refine ⟨m', hm', ?_⟩
        rw [htu']
        congr 1
        simp [startNames, List.filterMap_cons, hsn]

theorem addUnique_nodup (l : List String) (n : String) (h : l.Nodup) :
    (addUnique l n).Nodup := by
  unfold addUnique
  split_ifs with hmem
  · exact h
  · simp [List.nodup_append, h, hmem]

theorem foldl_addUnique_nodup (l : List String) :
    ∀ tu : List String, tu.Nodup → (l.foldl addUnique tu).Nodup := by
  induction l with
  | nil => intro tu h; exact h
  | cons a l ih => intro tu h; exact ih _ (addUnique_nodup tu a h)

theorem mem_foldl_addUnique (l : List String) :
    ∀ (tu : List String) (x : String),
      x ∈ l.foldl addUnique tu ↔ x ∈ tu ∨ x ∈ l := by
  induction l with
  | nil => simp
  | cons a l ih =>
      intro tu x
      simp only [List.foldl_cons, ih, addUnique]
      split_ifs with h
      · simp only [List.mem_cons]
        constructor
        · rintro (hx | hx)
          · exact Or.inl hx
          · exact Or.inr (Or.inr hx)
        · rintro (hx | hx | hx)
          · exact Or.inl hx
          · exact Or.inl (hx ▸ h)
          · exact Or.inr hx
      · simp only [List.mem_append, List.mem_cons, List.not_mem_nil, or_false]
        tauto

/-- C7: for any stream, the final `tools_used` list on the last
(assistant) transcript entry is exactly the guarded `tool{start}` names
folded with `if (!includes) push` — each started name appears exactly
once, in the order of each name's first `tool{start}` event; `tool{end}`
events never touch `tools_used`, so the result is independent of end
order. -/
theorem tools_used_first_start_order (st : ConsumerState)
    (tes : List (Nat × StreamEvent)) (m : Message)
    (hlast : st.messages.getLast? = some m) (htu : m.tools_used = some []) :
    ∃ m', (runEvents st tes).messages.getLast? = some m'
      ∧ m'.tools_used = some ((startNames tes).foldl addUnique [])
      ∧ ((startNames tes).foldl addUnique []).Nodup
      ∧ ∀ x, (x ∈ (startNames tes).foldl addUnique [] ↔ x ∈ startNames tes) := by
  obtain ⟨m', h1, h2⟩ := runEvents_tools_used tes st m [] hlast htu
  refine ⟨m', h1, h2, foldl_addUnique_nodup _ _ List.nodup_nil, fun x => ?_⟩
  rw [mem_foldl_addUnique]
  simp

/-- Witness for C7 at the spec's scenario: `search` and `calculator`
pairs interleaved with `message` events, ends in reverse order — the
final `tools_used` is `["search", "calculator"]`. -/
theorem tools_used_first_start_order_witness :
    ∃ m', (runEvents
        { consumerInit with
          messages := [{ role := "assistant", content := "", timestamp := "t",
                         tools_used := some [] }] }
        [(0, toolStartEvent "search"), (1, msgEvent "a"),
         (2, toolStartEvent "calculator"), (3, msgEvent "b"),
         (4, toolEndEvent "calculator"), (5, toolEndEvent "search"),
         (6, doneEvent)]).messages.getLast? = some m'
      ∧ m'.tools_used = some ((startNames
          [(0, toolStartEvent "search"), (1, msgEvent "a"),
           (2, toolStartEvent "calculator"), (3, msgEvent "b"),
           (4, toolEndEvent "calculator"), (5, toolEndEvent "search"),
           (6, doneEvent)]).foldl addUnique [])
      ∧ ((startNames
          [(0, toolStartEvent "search"), (1, msgEvent "a"),
           (2, toolStartEvent "calculator"), (3, msgEvent "b"),
           (4, toolEndEvent "calculator"), (5, toolEndEvent "search"),
           (6, doneEvent)]).foldl addUnique []).Nodup
      ∧ ∀ x, (x ∈ (startNames
          [(0, toolStartEvent "search"), (1, msgEvent "a"),
           (2, toolStartEvent "calculator"), (3, msgEvent "b"),
           (4, toolEndEvent "calculator"), (5, toolEndEvent "search"),
           (6, doneEvent)]).foldl addUnique [] ↔ x ∈ startNames
          [(0, toolStartEvent "search"), (1, msgEvent "a"),
           (2, toolStartEvent "calculator"), (3, msgEvent "b"),
           (4, toolEndEvent "calculator"), (5, toolEndEvent "search"),
           (6, doneEvent)]) :=
  tools_used_first_start_order _ _
    { role := "assistant", content := "", timestamp := "t",
      tools_used := some [] } (by decide) (by decide)

theorem fireDue_fst_sublist (timers : List (Nat × String)) :
    ∀ (now : Nat) (tools : List ToolActivity),
      (fireDue timers now tools).1.Sublist tools := by
  induction timers with
  | nil => intro now tools; exact List.Sublist.refl tools
  | cons t0 rest ih =>
      intro now tools
      obtain ⟨ft, n⟩ := t0
      by_cases h : ft ≤ now
      · simp only [fireDue, if_pos h]
        exact (ih now _).trans (List.filter_sublist tools)
      · simp only [fireDue, if_neg h]
        exact ih now tools

theorem fireDue_snd_subset (timers : List (Nat × String)) :
    ∀ (now : Nat) (tools : List ToolActivity) (tm : Nat × String),
      tm ∈ (fireDue timers now tools).2 → tm ∈ timers := by
  induction timers with
  | nil => intro now tools tm h; simp [fireDue] at h
  | cons t0 rest ih =>
      intro now tools tm h
      obtain ⟨ft, n⟩ := t0
      by_cases hle : ft ≤ now
      · simp only [fireDue, if_pos hle] at h
        exact List.mem_cons_of_mem _ (ih now _ tm h)
      · simp only [fireDue, if_neg hle] at h
        rcases List.mem_cons.mp h with h | h
        · exact h ▸ List.mem_cons_self _ _
        · exact List.mem_cons_of_mem _ (ih now tools tm h)

theorem fireDue_due_removes (timers : List (Nat × String)) :
    ∀ (now : Nat) (tools : List ToolActivity) (ft : Nat) (n : String),
      (ft, n) ∈ timers → ft ≤ now →
      ∀ a ∈ (fireDue timers now tools).1, a.name ≠ n := by
  induction timers with
  | nil => intro now tools ft n hmem; simp at hmem
  | cons t0 rest ih =>
      intro now tools ft n hmem hdue a ha
      obtain ⟨ft0, n0⟩ := t0
      rcases List.mem_cons.mp hmem with heq | hmem'
      · cases heq
        simp only [fireDue, if_pos hdue] at ha
        have hsub := (fireDue_fst_sublist rest now
          (tools.filter fun a => a.name != n)).subset ha
        have := (List.mem_filter.mp hsub).2
        simpa using this
      · by_cases hle : ft0 ≤ now
        · simp only [fireDue, if_pos hle] at ha
          exact ih now _ ft n hmem' hdue a ha
        · simp only [fireDue, if_neg hle] at ha
          exact ih now tools ft n hmem' hdue a ha

theorem fireDue_not_due_kept (timers : List (Nat × String)) :
    ∀ (now : Nat) (tools : List ToolActivity) (ft : Nat) (n : String),
      (ft, n) ∈ timers → now < ft →
      (ft, n) ∈ (fireDue timers now tools).2 := by
  induction timers with
  | nil => intro _ _ _ _ h; simp at h
  | cons t0 rest ih =>
      intro now tools ft n hmem hlt
      obtain ⟨ft0, n0⟩ := t0
      rcases List.mem_cons.mp hmem with heq | hmem'
      · cases heq
        have hnle : ¬ (ft ≤ now) := by omega
        simp only [fireDue, if_neg hnle]
        exact List.mem_cons_self _ _
      · by_cases hle : ft0 ≤ now
        · simp only [fireDue, if_pos hle]
          exact ih now _ ft n hmem' hlt
        · simp only [fireDue, if_neg hle]
          exact List.mem_cons_of_mem _ (ih now tools ft n hmem' hlt)

theorem fireDue_keeps_entry (timers : List (Nat × String)) :
    ∀ (now : Nat) (tools : List ToolActivity) (n : String),
      (∀ tm ∈ timers, tm.2 = n → now < tm.1) →
      (∃ a ∈ tools, a.name = n) →
      ∃ a ∈ (fireDue timers now tools).1, a.name = n := by
  induction timers with
  | nil => intro now tools n _ hex; exact hex
  | cons t0 rest ih =>
      intro now tools n hts hex
      obtain ⟨ft0, n0⟩ := t0
      by_cases hle : ft0 ≤ now
      · have hn0 : n0 ≠ n := by
          intro hh
          have := hts (ft0, n0) (List.mem_cons_self _ _) hh
          omega
        simp only [fireDue, if_pos hle]
        apply ih now _ n
        · intro tm hm hname
          exact hts tm (List.mem_cons_of_mem _ hm) hname
        · obtain ⟨a, ha, han⟩ := hex
          refine ⟨a, List.mem_filter.mpr ⟨ha, ?_⟩, han⟩
          simp [han]
          exact fun hh => hn0 hh.symm
      · simp only [fireDue, if_neg hle]
        exact ih now tools n
          (fun tm hm hname => hts tm (List.mem_cons_of_mem _ hm) hname) hex

theorem foldEvent_names_cases (st : ConsumerState) (now : Nat)
    (e : StreamEvent) :
    ((foldEvent st now e).activeTools.map (fun a => a.name) =
        st.activeTools.map (fun a => a.name) ∧ startName e = none)
    ∨ (∃ n, startName e = some n ∧
        (foldEvent st now e).activeTools.map (fun a => a.name) =
          st.activeTools.map (fun a => a.name) ++ [n])
    ∨ ((foldEvent st now e).activeTools = [] ∧ startName e = none) := by
  by_cases ht : e.type = "tool"
  · by_cases htr : truthyStr e.tool_name = true
    · by_cases hs : e.status = some "start"
      · rcases hname : e.tool_name with _ | s
        · rw [hname] at htr; simp [truthyStr] at htr
        · refine Or.inr (Or.inl ⟨s, ?_, ?_⟩)
          · rw [startName_of_start e (by simp [ht]) htr (by simp [hs]), hname]
          · rw [foldEvent_start_eq st now e ht htr hs]
            simp [hname]
      · by_cases he : e.status = some "end"
        · refine Or.inl ⟨?_, startName_of_not_start e (by simp [he])⟩
          rw [foldEvent_end_eq st now e ht htr he]
          show (st.activeTools.map _).map _ = _
          rw [List.map_map]
          apply List.map_congr_left
          intro a _
          show (if a.name == e.tool_name.getD ""
            then { a with status := "completed" } else a).name = a.name
          split <;> rfl
        · exact Or.inl ⟨by rw [foldEvent_tool_other st now e ht htr hs he],
            startName_of_not_start e (by simp [hs])⟩
    · exact Or.inl
        ⟨by rw [foldEvent_tool_not_truthy st now e ht (by simpa using htr)],
         startName_of_not_truthy e (by simpa using htr)⟩
  · have hsn := startName_of_not_tool e (by simp [ht])
    by_cases hm : e.type = "message"
    · by_cases hc : truthyStr e.content = true
      · exact Or.inl ⟨by rw [foldEvent_msg_pos st now e hm hc], hsn⟩
      · exact Or.inl
          ⟨by rw [foldEvent_msg_neg st now e hm (by simpa using hc)], hsn⟩
    · by_cases herr : e.type = "error"
      · exact Or.inl ⟨by rw [foldEvent_error_eq st now e herr], hsn⟩
      · by_cases hd : e.type = "done"
        · exact Or.inr (Or.inr ⟨by rw [foldEvent_done_eq st now e hd], hsn⟩)
        · exact Or.inl
            ⟨by rw [foldEvent_other_eq st now e hm ht herr hd], hsn⟩

theorem runEvents_names_nodup (tes : List (Nat × StreamEvent)) :
    ∀ st : ConsumerState,
      (st.activeTools.map (fun a => a.name) ++ startNames tes).Nodup →
      ((runEvents st tes).activeTools.map (fun a => a.name)).Nodup := by
  induction tes with
  | nil => intro st h; simpa [startNames] using h
  | cons te tes ih =>
      intro st h
      obtain ⟨t, e⟩ := te
      show ((runEvents (stepTimed st (t, e)) tes).activeTools.map _).Nodup
      apply ih
      have hsub : ((fireTimersAt st t).activeTools.map
          (fun a => a.name)).Sublist (st.activeTools.map (fun a => a.name)) :=
        (fireDue_fst_sublist st.timers t st.activeTools).map _
      rcases foldEvent_names_cases (fireTimersAt st t) t e with
        ⟨heq, hsn⟩ | ⟨n, hsn, heq⟩ | ⟨heq, hsn⟩
      · show (((foldEvent (fireTimersAt st t) t e).activeTools.map
          (fun a => a.name)) ++ startNames tes).Nodup
        rw [heq]
        have h' : (st.activeTools.map (fun a => a.name) ++
            startNames tes).Nodup := by
          rwa [show startNames ((t, e) :: tes) = startNames tes from by
            simp [startNames, List.filterMap_cons, hsn]] at h
        exact h'.sublist (hsub.append_right _)
      · show (((foldEvent (fireTimersAt st t) t e).activeTools.map
          (fun a => a.name)) ++ startNames tes).Nodup
        rw [heq]
        have h' : (st.activeTools.map (fun a => a.name) ++
            n :: startNames tes).Nodup := by
          rwa [show startNames ((t, e) :: tes) = n :: startNames tes from by
            simp [startNames, List.filterMap_cons, hsn]] at h
        have h'' : ((fireTimersAt st t).activeTools.map (fun a => a.name) ++
            n :: startNames tes).Nodup :=
          h'.sublist (hsub.append_right _)
        rw [List.append_assoc]
        exact h''
      · show (((foldEvent (fireTimersAt st t) t e).activeTools.map
          (fun a => a.name)) ++ startNames tes).Nodup
        rw [heq]
        simp only [List.map_nil, List.nil_append]
        have h' : (st.activeTools.map (fun a => a.name) ++
            startNames tes).Nodup := by
          rwa [show startNames ((t, e) :: tes) = startNames tes from by
            simp [startNames, List.filterMap_cons, hsn]] at h
        exact h'.sublist (List.sublist_append_right _ _)

/-- C5 counterexample: folding two `tool{start}` events for the same
name creates two entries in the active-tool projection — the `start`
case appends unconditionally, so at-most-one-entry-per-name fails as
stated. -/
theorem duplicate_start_duplicates_entry :
    (runEvents consumerInit
        [(0, toolStartEvent "search"), (1, toolStartEvent "search")]).activeTools =
      [{ name := "search", status := "active" },
       { name := "search", status := "active" }]
    ∧ ¬ (((runEvents consumerInit
        [(0, toolStartEvent "search"), (1, toolStartEvent "search")]).activeTools.map
          (fun a => a.name)).Nodup) := by
  refine ⟨by decide, by decide⟩

/-- C5 amended: when the guarded `tool{start}` events of the stream
carry pairwise-distinct names, the active-tool projection holds at most
one entry per tool name at every point (after any trace, at any
observation time); in general a second `start` for the same name
duplicates the entry. -/
theorem active_tools_nodup_of_distinct_starts (st : ConsumerState)
    (tes : List (Nat × StreamEvent)) (T : Nat)
    (h0 : st.activeTools = []) (hnodup : (startNames tes).Nodup) :
    (((fireTimersAt (runEvents st tes) T).activeTools).map
      (fun a => a.name)).Nodup := by
  have h1 : ((runEvents st tes).activeTools.map (fun a => a.name)).Nodup := by
    apply runEvents_names_nodup
    rw [h0]
    simpa using hnodup
  have hsub : ((fireTimersAt (runEvents st tes) T).activeTools.map
      (fun a => a.name)).Sublist
        ((runEvents st tes).activeTools.map (fun a => a.name)) :=
    (fireDue_fst_sublist _ T _).map _
  exact h1.sublist hsub

/-- Witness for the amended C5: two distinct tool starts yield a
projection with pairwise-distinct names. -/
theorem active_tools_nodup_of_distinct_starts_witness :
    (((fireTimersAt (runEvents consumerInit
        [(0, toolStartEvent "alpha"), (1, toolStartEvent "beta")]) 1).activeTools).map
      (fun a => a.name)).Nodup :=
  active_tools_nodup_of_distinct_starts consumerInit
    [(0, toolStartEvent "alpha"), (1, toolStartEvent "beta")] 1
    (by decide) (by decide)

theorem foldEvent_timers_cases (st : ConsumerState) (now : Nat)
    (e : StreamEvent) :
    (foldEvent st now e).timers = st.timers
    ∨ ∃ s, e.tool_name = some s ∧ mentionsTool s e = true ∧
        (foldEvent st now e).timers =
          st.timers ++ [(now + removalDelay, s)] := by
  by_cases ht : e.type = "tool"
  · by_cases htr : truthyStr e.tool_name = true
    · by_cases hs : e.status = some "start"
      · exact Or.inl (by rw [foldEvent_start_eq st now e ht htr hs])
      · by_cases he : e.status = some "end"
        · rcases hname : e.tool_name with _ | s
          · rw [hname] at htr; simp [truthyStr] at htr
          · refine Or.inr ⟨s, rfl, ?_, ?_⟩
            · simp [mentionsTool, ht, hname]
            · rw [foldEvent_end_eq st now e ht htr he]
              simp [hname]
        · exact Or.inl (by rw [foldEvent_tool_other st now e ht htr hs he])
    · exact Or.inl
        (by rw [foldEvent_tool_not_truthy st now e ht (by simpa using htr)])
  · by_cases hm : e.type = "message"
    · by_cases hc : truthyStr e.content = true
      · exact Or.inl (by rw [foldEvent_msg_pos st now e hm hc])
      · exact Or.inl (by rw [foldEvent_msg_neg st now e hm (by simpa using hc)])
    · by_cases herr : e.type = "error"
      · exact Or.inl (by rw [foldEvent_error_eq st now e herr])
      · by_cases hd : e.type = "done"
        · exact Or.inl (by rw [foldEvent_done_eq st now e hd])
        · exact Or.inl (by rw [foldEvent_other_eq st now e hm ht herr hd])

theorem foldEvent_timers_superset (st : ConsumerState) (now : Nat)
    (e : StreamEvent) (tm : Nat × String) (h : tm ∈ st.timers) :
    tm ∈ (foldEvent st now e).timers := by
  rcases foldEvent_timers_cases st now e with hc | ⟨s, _, _, hc⟩ <;> rw [hc]
  · exact h
  · exact List.mem_append_left _ h

theorem foldEvent_keeps_name (st : ConsumerState) (now : Nat)
    (e : StreamEvent) (n : String) (hdone : isDoneEvent e = false)
    (hex : ∃ a ∈ st.activeTools, a.name = n) :
    ∃ a ∈ (foldEvent st now e).activeTools, a.name = n := by
  obtain ⟨a, ha, han⟩ := hex
  by_cases ht : e.type = "tool"
  · by_cases htr : truthyStr e.tool_name = true
    · by_cases hs : e.status = some "start"
      · rw [foldEvent_start_eq st now e ht htr hs]
        exact ⟨a, List.mem_append_left _ ha, han⟩
      · by_cases he : e.status = some "end"
        · rw [foldEvent_end_eq st now e ht htr he]
          refine ⟨_, List.mem_map_of_mem _ ha, ?_⟩
          show (if a.name == e.tool_name.getD ""
            then { a with status := "completed" } else a).name = n
          split <;> exact han
        · rw [foldEvent_tool_other st now e ht htr hs he]
          exact ⟨a, ha, han⟩
    · rw [foldEvent_tool_not_truthy st now e ht (by simpa using htr)]
      exact ⟨a, ha, han⟩
  · by_cases hm : e.type = "message"
    · by_cases hc : truthyStr e.content = true
      · rw [foldEvent_msg_pos st now e hm hc]
        exact ⟨a, ha, han⟩
      · rw [foldEvent_msg_neg st now e hm (by simpa using hc)]
        exact ⟨a, ha, han⟩
    · by_cases herr : e.type = "error"
      · rw [foldEvent_error_eq st now e herr]
        exact ⟨a, ha, han⟩
      · by_cases hd : e.type = "done"
        · rw [isDoneEvent, hd] at hdone
          simp at hdone
        · rw [foldEvent_other_eq st now e hm ht herr hd]
          exact ⟨a, ha, han⟩

theorem foldEvent_no_name (st : ConsumerState) (now : Nat) (e : StreamEvent)
    (n : String) (hstart : isToolStartFor n e = false)
    (hno : ∀ a ∈ st.activeTools, a.name ≠ n) :
    ∀ a ∈ (foldEvent st now e).activeTools, a.name ≠ n := by
  by_cases ht : e.type = "tool"
  · by_cases htr : truthyStr e.tool_name = true
    · by_cases hs : e.status = some "start"
      · rw [foldEvent_start_eq st now e ht htr hs]
        intro a ha
        rcases List.mem_append.mp ha with ha | ha
        · exact hno a ha
        · simp only [List.mem_singleton] at ha
          subst ha
          intro hh
          rcases hname : e.tool_name with _ | s
          · rw [hname] at htr; simp [truthyStr] at htr
          · rw [hname] at hh
            simp at hh
            rw [isToolStartFor, ht, hname, hh, hs] at hstart
            simp at hstart
      · by_cases he : e.status = some "end"
        · rw [foldEvent_end_eq st now e ht htr he]
          intro a ha
          rcases List.mem_map.mp ha with ⟨b, hb, rfl⟩
          have hbn := hno b hb
          show (if b.name == e.tool_name.getD ""
            then { b with status := "completed" } else b).name ≠ n
          split <;> exact hbn
        · rw [foldEvent_tool_other st now e ht htr hs he]
          exact hno
    · rw [foldEvent_tool_not_truthy st now e ht (by simpa using htr)]
      exact hno
  · by_cases hm : e.type = "message"
    · by_cases hc : truthyStr e.content = true
      · rw [foldEvent_msg_pos st now e hm hc]
        exact hno
      · rw [foldEvent_msg_neg st now e hm (by simpa using hc)]
        exact hno
    · by_cases herr : e.type = "error"
      · rw [foldEvent_error_eq st now e herr]
        exact hno
      · by_cases hd : e.type = "done"
        · rw [foldEvent_done_eq st now e hd]
          intro a ha
          simp at ha
        · rw [foldEvent_other_eq st now e hm ht herr hd]
          exact hno

theorem runEvents_timer_or_clear (tes : List (Nat × StreamEvent))
    (n : String) (ft : Nat) :
    ∀ st : ConsumerState,
      (∀ te ∈ tes, isToolStartFor n te.2 = false) →
      ((ft, n) ∈ st.timers ∨ ∀ a ∈ st.activeTools, a.name ≠ n) →
      ((ft, n) ∈ (runEvents st tes).timers ∨
        ∀ a ∈ (runEvents st tes).activeTools, a.name ≠ n) := by
  induction tes with
  | nil => intro st _ h; exact h
  | cons te tes ih =>
      intro st hstart h
      obtain ⟨t, e⟩ := te
      show (ft, n) ∈ (runEvents (stepTimed st (t, e)) tes).timers ∨ _
      apply ih
      · intro te hte
        exact hstart te (List.mem_cons_of_mem _ hte)
      · have hstage1 : (ft, n) ∈ (fireTimersAt st t).timers ∨
            ∀ a ∈ (fireTimersAt st t).activeTools, a.name ≠ n := by
          rcases h with h | h
          · by_cases hdue : ft ≤ t
            · exact Or.inr
                (fireDue_due_removes st.timers t st.activeTools ft n h hdue)
            · exact Or.inl (fireDue_not_due_kept st.timers t st.activeTools
                ft n h (by omega))
          · exact Or.inr fun a ha =>
              h a ((fireDue_fst_sublist st.timers t st.activeTools).subset ha)
        rcases hstage1 with h1 | h1
        · exact Or.inl (foldEvent_timers_superset _ t e _ h1)
        · exact Or.inr (foldEvent_no_name _ t e n
            (hstart (t, e) (List.mem_cons_self _ _)) h1)

theorem runEvents_keeps_entry (tes : List (Nat × StreamEvent))
    (n : String) (tmax : Nat) :
    ∀ st : ConsumerState,
      (∀ te ∈ tes, te.1 ≤ tmax ∧ isDoneEvent te.2 = false ∧
        mentionsTool n te.2 = false) →
      (∃ a ∈ st.activeTools, a.name = n) →
      (∀ tm ∈ st.timers, tm.2 = n → tmax < tm.1) →
      (∃ a ∈ (runEvents st tes).activeTools, a.name = n) ∧
        (∀ tm ∈ (runEvents st tes).timers, tm.2 = n → tmax < tm.1) := by
  induction tes with
  | nil => intro st _ hex hts; exact ⟨hex, hts⟩
  | cons te tes ih =>
      intro st hcond hex hts
      obtain ⟨t, e⟩ := te
      obtain ⟨hle, hdone, hmention⟩ := hcond (t, e) (List.mem_cons_self _ _)
      have hts1 : ∀ tm ∈ (fireTimersAt st t).timers, tm.2 = n → tmax < tm.1 :=
        fun tm hm hname =>
          hts tm (fireDue_snd_subset st.timers t st.activeTools tm hm) hname
      have hex1 : ∃ a ∈ (fireTimersAt st t).activeTools, a.name = n := by
        apply fireDue_keeps_entry st.timers t st.activeTools n ?_ hex
        intro tm hm hname
        have := hts tm hm hname
        omega
      have hex2 : ∃ a ∈ (foldEvent (fireTimersAt st t) t e).activeTools,
          a.name = n :=
        foldEvent_keeps_name _ t e n hdone hex1
      have hts2 : ∀ tm ∈ (foldEvent (fireTimersAt st t) t e).timers,
          tm.2 = n → tmax < tm.1 := by
        intro tm hm hname
        rcases foldEvent_timers_cases (fireTimersAt st t) t e with
          hsame | ⟨s, hsname, hms, happ⟩
        · rw [hsame] at hm
          exact hts1 tm hm hname
        · rw [happ] at hm
          rcases List.mem_append.mp hm with hm | hm
          · exact hts1 tm hm hname
          · simp only [List.mem_singleton] at hm
            subst hm
            simp only at hname
            rw [hname] at hms
            simp [hms] at hmention
      exact ih _ (fun te hte => hcond te (List.mem_cons_of_mem _ hte)) hex2 hts2

/-- C4 counterexample: the claim's "absent no earlier than the 2000 ms
delay, regardless of which events (including `done`) follow" fails —
after `tool{end}` for `"search"` at time 1, a `done` event at time 2
clears the whole projection immediately, so the entry is absent at
time 2, long before the delay since the end event has elapsed. -/
theorem tool_entry_cleared_before_delay_by_done :
    (fireTimersAt (runEvents consumerInit
        [(0, toolStartEvent "search"), (1, toolEndEvent "search"),
         (2, doneEvent)]) 2).activeTools = []
    ∧ 2 < 1 + removalDelay := by
  refine ⟨by decide, by decide⟩

/-- C4 amended: after the consumer folds `tool{end}` for `n` at time `t`,
(a) the entry for `n` is still in the projection at any observation time
`t' < t + 2000` — provided no `done` event and no other `tool` event for
`n` is folded meanwhile and no older timer for `n` is due — and
(b) at any observation time `T ≥ t + 2000` the entry for `n` is absent,
whatever events (including `done` and further `tool{end}`s for `n`)
follow, as long as no later `tool{start}` for `n` re-adds it. -/
theorem tool_end_removal_delay (st : ConsumerState) (n : String) (t : Nat)
    (tes : List (Nat × StreamEvent)) :
    (∀ t', t ≤ t' → t' < t + removalDelay →
      (∀ te ∈ tes, te.1 ≤ t' ∧ isDoneEvent te.2 = false ∧
        mentionsTool n te.2 = false) →
      (∀ tm ∈ st.timers, tm.2 = n → t' < tm.1) →
      (∃ a ∈ (foldEvent st t (toolEndEvent n)).activeTools, a.name = n) →
      ∃ a ∈ (fireTimersAt (runEvents (foldEvent st t (toolEndEvent n)) tes)
        t').activeTools, a.name = n)
    ∧ (∀ T, t + removalDelay ≤ T → n ≠ "" →
      (∀ te ∈ tes, isToolStartFor n te.2 = false) →
      ∀ a ∈ (fireTimersAt (runEvents (foldEvent st t (toolEndEvent n)) tes)
        T).activeTools, a.name ≠ n) := by
  constructor
  · intro t' ht1 ht2 hcond hstimers hex
    have htimers : ∀ tm ∈ (foldEvent st t (toolEndEvent n)).timers,
        tm.2 = n → t' < tm.1 := by
      by_cases hn : n = ""
      · rw [foldEvent_tool_not_truthy st t _ rfl
          (by simp [truthyStr, toolEndEvent, hn])]
        exact hstimers
      · rw [foldEvent_end_eq st t _ rfl
          (by simp [truthyStr, toolEndEvent]; exact hn) rfl]
        intro tm hm hname
        rcases List.mem_append.mp hm with hm | hm
        · exact hstimers tm hm hname
        · simp only [List.mem_singleton] at hm
          subst hm
          omega
    obtain ⟨hex2, hts2⟩ :=
      runEvents_keeps_entry tes n t' (foldEvent st t (toolEndEvent n))
        hcond hex htimers
    exact fireDue_keeps_entry _ t' _ n (fun tm hm hname => hts2 tm hm hname)
      hex2
  · intro T hT hn hstarts
    have hmem : (t + removalDelay, n) ∈
        (foldEvent st t (toolEndEvent n)).timers := by
      rw [foldEvent_end_eq st t _ rfl
        (by simp [truthyStr, toolEndEvent]; exact hn) rfl]
      exact List.mem_append_right _ (by simp [toolEndEvent])
    rcases runEvents_timer_or_clear tes n (t + removalDelay)
        (foldEvent st t (toolEndEvent n)) hstarts (Or.inl hmem) with h | h
    · exact fireDue_due_removes _ T _ (t + removalDelay) n h hT
    · intro a ha
      exact h a ((fireDue_fst_sublist _ T _).subset ha)

/-- Witness for the amended C4: with one active `"search"` entry, after
`tool{end}` at time 0 and no further events, the entry is still present
at time 100 (part a) and absent at time 2000 (part b). -/
theorem tool_end_removal_delay_witness :
    (∃ a ∈ (fireTimersAt (runEvents (foldEvent
        { consumerInit with
          activeTools := [{ name := "search", status := "active" }] }
        0 (toolEndEvent "search")) []) 100).activeTools, a.name = "search")
    ∧ (∀ a ∈ (fireTimersAt (runEvents (foldEvent
        { consumerInit with
          activeTools := [{ name := "search", status := "active" }] }
        0 (toolEndEvent "search")) []) 2000).activeTools,
        a.name ≠ "search") := by
  constructor
  · exact (tool_end_removal_delay _ "search" 0 []).1 100 (by decide)
      (by decide) (by intro te hte; simp at hte)
      (by intro tm hm _; simp [consumerInit] at hm) (by decide)
  · exact (tool_end_removal_delay _ "search" 0 []).2 2000 (by decide)
      (by decide) (by intro te hte; simp at hte)
